import Mathlib

/-!
Verification development for the `hashsplit` crate: rolling-hash window
engine, checksum algorithms (`rrs`, `bozo32`), significance levels
(`Leveled`), boundary detection (`Delimited` / `Distances`), chunk
materialization (`Splits` / `Spans`), batched updates
(`process_slice` / `process_block`), and diagnostic config display.

Machine integers are embedded as `Nat` with explicit reduction modulo
`2 ^ 32` where the Rust code performs `u32` arithmetic (release-mode /
wrapping semantics, which is what the crate documents as normal
operation).  Bytes are embedded as `Nat` (their `as u32` images).
The crate-level constant `WINDOW_SIZE` is referenced by the sources but
its defining module is not among the source files; following the spec
("W is a fixed global width") it is carried as an explicit parameter
`W` everywhere, so all results hold for every choice of the constant.
Iterators are embedded as explicit state machines: each Rust
`Iterator::next` becomes a function `state → Option (item × state)`,
and running an iterator to exhaustion becomes a fuel-indexed recursion
whose fuel provably exceeds the number of possible `next` calls.
-/

namespace Hashsplit

/-! ## Wrapping 32-bit arithmetic -/

/-- Modulus of `u32` arithmetic, `2 ^ 32`. -/
def two32 : Nat := 4294967296

/-- Wrapping `u32` addition (`x + y` on `u32`). -/
def add32 (x y : Nat) : Nat := (x + y) % two32

/-- Wrapping `u32` subtraction (`x - y` on `u32`, release semantics). -/
def sub32 (x y : Nat) : Nat := (x + (two32 - y % two32)) % two32

/-- Wrapping `u32` multiplication (`x * y` on `u32`). -/
def mul32 (x y : Nat) : Nat := (x * y) % two32

/-- Wrapping `u32` left shift by 16 (`x << 16` on `u32`). -/
def shl16 (x : Nat) : Nat := (x * 65536) % two32

/-! ## Significance levels (`Leveled`, `src/lib.rs` lines 33-64) -/

/-- Embedding of `impl Leveled for bool`: the Rust body is `!self as u32`,
so `false ↦ 1` and `true ↦ 0`. -/
def levelBool (b : Bool) : Nat := if b then 0 else 1

/-- Embedding of the trailing-zero-bit count used by
`implement_leveled_for_integer_primitive` (`self.trailing_zeros()`):
for a `w`-bit value with bit pattern `x < 2 ^ w`, count the trailing
zero bits; the count for the all-zero pattern is the full bit width
`w`.  Signed primitives use the same bit-pattern count. -/
def trailingZeros : Nat → Nat → Nat
  | 0, _ => 0
  | w + 1, x => if x % 2 = 1 then 0 else trailingZeros w (x / 2) + 1

/-! ## Config display (`src/config.rs` lines 33-66) -/

/-- Embedding of `impl Display for Size`: `z >> k` rendered with a
binary-unit suffix when `z` is an exact multiple of the unit. -/
def sizeDisplay (z : Nat) : String :=
  if z % (2 ^ 30) = 0 then toString (z >>> 30) ++ "Gi"
  else if z % (2 ^ 20) = 0 then toString (z >>> 20) ++ "Mi"
  else if z % (2 ^ 10) = 0 then toString (z >>> 10) ++ "Ki"
  else toString z

/-- Embedding of `impl Display for Config`:
`write!(f, "HashSplit_{}_{}_{}_{}", THRESHOLD, Hash::NAME, Size(MIN_SIZE), Size(MAX_SIZE))`. -/
def configDisplay (threshold : Nat) (name : String) (minSize maxSize : Nat) : String :=
  "HashSplit_" ++ toString threshold ++ "_" ++ name ++ "_"
    ++ sizeDisplay minSize ++ "_" ++ sizeDisplay maxSize

/-- Rendering of a size exactly as the specification words it: `z/2^30`
followed by `"Gi"` when `z` is a multiple of `2^30`, else `z/2^20`
followed by `"Mi"` when a multiple of `2^20`, else `z/2^10` followed by
`"Ki"` when a multiple of `2^10`, else plain decimal.  Stated from the
spec's words so that the source-derived `sizeDisplay` can be compared
against it. -/
def sizeSpec (z : Nat) : String :=
  if 2 ^ 30 ∣ z then toString (z / 2 ^ 30) ++ "Gi"
  else if 2 ^ 20 ∣ z then toString (z / 2 ^ 20) ++ "Mi"
  else if 2 ^ 10 ∣ z then toString (z / 2 ^ 10) ++ "Ki"
  else toString z

/-! ## RRS checksum (`src/algorithms/rrs.rs` lines 24-36, `src/rrs.rs` lines 47-59) -/

/-- Embedding of `rrs::process_byte_freestanding` (equivalently
`rrs::Hasher::process_byte` in the `Rrs1` packing style), with the
compile-time parameters `MODULUS`, `OFFSET` and the window width
(`WINDOW_SIZE as u32`, resp. `self.width`) made explicit.  All
arithmetic is wrapping `u32` arithmetic followed by `% MODULUS`,
exactly as in the source:
`a_new = (a - old + new) % MODULUS`,
`b_new = (b - W * (old + OFFSET) + a_new) % MODULUS`,
`sum = b_new + (a_new << 16)`. -/
def rrsProcessByte (MODULUS OFFSET W : Nat) (a b old new : Nat) :
    Nat × (Nat × Nat) :=
  let a_new := add32 (sub32 a old) new % MODULUS
  let b_new := add32 (sub32 b (mul32 W (add32 old OFFSET))) a_new % MODULUS
  let sum := add32 b_new (shl16 a_new)
  (sum, (a_new, b_new))

/-! ## Bozo32 checksum (`src/algorithms/bozo32.rs`) -/

/-- Loop body of the compile-time `PRIME_POW` computation:
`while i < WINDOW_SIZE { pow = pow.wrapping_mul(PRIME); i += 1 }`. -/
def primePowAux : Nat → Nat → Nat
  | 0, pow => pow
  | i + 1, pow => primePowAux i (mul32 pow 65521)

/-- Embedding of the `PRIME_POW` constant of `bozo32.rs`: the wrapping
`W`-th power of `PRIME = 65_521`, with the window width `W`
(`WINDOW_SIZE`) explicit. -/
def primePow (W : Nat) : Nat := primePowAux W 1

/-- Embedding of `bozo32::process_byte_freestanding`:
`sum = state * PRIME + new_byte - old_byte * PRIME_POW` on `u32`,
returned as both checksum and new state. -/
def bozoProcessByte (W : Nat) (state old new : Nat) : Nat × Nat :=
  let sum := sub32 (add32 (mul32 state 65521) new) (mul32 old (primePow W))
  (sum, sum)

/-! ## Batched updates (`src/lib.rs` lines 98-111, `src/thin.rs` lines 20-36) -/

/-- Embedding of the provided `Hasher::process_slice` of `src/lib.rs`:
fold `process_byte` over the element-wise zip of the old and new byte
slices, starting from `(Default::default(), state)`.  Generic over the
hasher: `procByte state width old new = (checksum, new_state)` and
`dflt` is the `Default` checksum. -/
def processSlice {σ χ : Type} (procByte : σ → Nat → Nat → Nat → χ × σ)
    (dflt : χ) (state : σ) (width : Nat) (old_data new_data : List Nat) : χ × σ :=
  (old_data.zip new_data).foldl (fun p q => procByte p.2 width q.1 q.2) (dflt, state)

/-- Modelled from the spec: `process_sequence`, called by
`Thinned::process_block`, is declared on a revision of the `Hasher`
trait that is not among the source files; per the spec a default
batched form "folds `process_byte` over paired old/new byte
sequences". -/
def processSequence {σ χ : Type} (procByte : σ → Nat → Nat → χ × σ)
    (dflt : χ) (state : σ) (pairs : List (Nat × Nat)) : χ × σ :=
  pairs.foldl (fun p q => procByte p.2 q.1 q.2) (dflt, state)

/-- Embedding of the provided `Thinned::process_block` of `src/thin.rs`:
`assert_eq!(old_block.len(), Self::BLOCK_SIZE)` then
`process_sequence` over the element-wise zip of the blocks.  The
assertion is modelled by the `Option`: `none` is the assertion
failure. -/
def processBlock {σ χ : Type} (BLOCK_SIZE : Nat) (procByte : σ → Nat → Nat → χ × σ)
    (dflt : χ) (state : σ) (old_block new_block : List Nat) : Option (χ × σ) :=
  if old_block.length = BLOCK_SIZE then
    some (processSequence procByte dflt state (old_block.zip new_block))
  else none

/-! ## Rolling window engine (`src/iter.rs` lines 11-71, `src/lib.rs` lines 117-225) -/

/-- A rolling hash algorithm as consumed by the iterator pipeline: the
`Hasher` trait (associated `State` and `Checksum` types,
`INITIAL_STATE`, `process_byte`) together with the `Leveled`
implementation of its checksum type. -/
structure HashAlg where
  State : Type
  Sum : Type
  init : State
  proc : State → Nat → Nat → Sum × State
  lvl : Sum → Nat

/-- State of `Rolling`: hash state, ring-buffer write cursor `begin`,
ring buffer, and the remaining byte source (a finite iterator). -/
structure RollingSt (H : HashAlg) where
  state : H.State
  begin : Nat
  ring : List Nat
  source : List Nat

/-- Embedding of `Rolling::start`: initial state, cursor 0, zeroed ring
of width `W`. -/
def Rolling.start (H : HashAlg) (W : Nat) (src : List Nat) : RollingSt H :=
  ⟨H.init, 0, List.replicate W 0, src⟩

/-- Embedding of `Rolling::feed`: read the evicted byte `ring[begin]`,
run `process_byte`, store the new state, write the new byte at
`begin`, and advance the cursor modulo `W`.  The ring accesses are
embedded totally (`getD` / `set`); the in-bounds safety claim is
stated separately as the cursor invariant. -/
def feed (H : HashAlg) (W : Nat) (r : RollingSt H) (byte : Nat) : H.Sum × RollingSt H :=
  let ps := H.proc r.state (r.ring.getD r.begin 0) byte
  (ps.1, ⟨ps.2, if r.begin + 1 = W then 0 else r.begin + 1,
    r.ring.set r.begin byte, r.source⟩)

/-- Iterated `feed` over a byte list (the sequence of `feed` calls a
driving iterator performs). -/
def feedAll (H : HashAlg) (W : Nat) (r : RollingSt H) : List Nat → RollingSt H
  | [] => r
  | b :: rest => feedAll H W (feed H W r b).2 rest

/-- Embedding of `Iterator::next` for `Rolling` (`src/iter.rs` line 50):
pull a byte from the source and feed it, yielding the checksum. -/
def rollingNext (H : HashAlg) (W : Nat) (r : RollingSt H) :
    Option (H.Sum × RollingSt H) :=
  match r.source with
  | [] => none
  | byte :: rest => some (feed H W ⟨r.state, r.begin, r.ring, rest⟩ byte)

/-- Embedding of `Iterator::next` for `WithRolling`: like `rollingNext`
but yielding the `(byte, checksum)` pair. -/
def withRollingNext (H : HashAlg) (W : Nat) (r : RollingSt H) :
    Option ((Nat × H.Sum) × RollingSt H) :=
  match r.source with
  | [] => none
  | byte :: rest =>
    some ((byte, (feed H W ⟨r.state, r.begin, r.ring, rest⟩ byte).1),
      (feed H W ⟨r.state, r.begin, r.ring, rest⟩ byte).2)

/-! ## Boundary detector (`src/iter.rs` lines 73-179, 217-291) -/

/-- Embedding of `Boundary`: `Level(level, state)`, `Capped(state)`,
`Eof(state)`. -/
inductive Bdy (H : HashAlg) where
  | level : Nat → H.State → Bdy H
  | capped : H.State → Bdy H
  | eof : H.State → Bdy H

/-- Embedding of `Boundary::into_state`. -/
def Bdy.intoState {H : HashAlg} : Bdy H → H.State
  | Bdy.level _ s => s
  | Bdy.capped s => s
  | Bdy.eof s => s

/-- Whether a boundary is the terminal `Eof` boundary. -/
def Bdy.isEof {H : HashAlg} : Bdy H → Bool
  | Bdy.eof _ => true
  | _ => false

/-- Embedding of `Event`: `Data(byte)` or `Boundary(boundary)`. -/
inductive Ev (H : HashAlg) where
  | data : Nat → Ev H
  | bdy : Bdy H → Ev H

/-- State of `Delimited`: the staged boundary `prepared`
(`Some(level)` for `Boundary::Level`, `None` for `Capped`), the run
counter, the halt flag, and the `WithRolling` input. -/
structure DelimSt (H : HashAlg) where
  prepared : Option (Option Nat × H.State)
  counter : Nat
  halt : Bool
  input : RollingSt H

/-- Embedding of `Delimited::start` (as reached from
`Config::delimited`). -/
def Delimited.start (H : HashAlg) (W : Nat) (src : List Nat) : DelimSt H :=
  ⟨none, 0, false, Rolling.start H W src⟩

/-- Embedding of `Delimited::next` (`src/iter.rs` lines 147-179):
emit a pending boundary first; otherwise consume a `(byte, checksum)`
pair, stage a `Level` boundary when `level ≥ THRESHOLD` and
`counter ≥ MIN_SIZE`, else a `Capped` boundary when
`counter == MAX_SIZE` (resetting the counter when staging), and emit
`Data(byte)`; at source exhaustion emit one `Eof` and halt. -/
def delimitedNext (H : HashAlg) (W T MIN MAX : Nat) (d : DelimSt H) :
    Option (Ev H × DelimSt H) :=
  if d.halt then none
  else
    match d.prepared with
    | some ms =>
      some (Ev.bdy (match ms.1 with
        | some lev => Bdy.level lev ms.2
        | none => Bdy.capped ms.2), ⟨none, d.counter, d.halt, d.input⟩)
    | none =>
      match withRollingNext H W d.input with
      | some bs =>
        if T ≤ H.lvl bs.1.2 ∧ MIN ≤ d.counter + 1 then
          some (Ev.data bs.1.1, ⟨some (some (H.lvl bs.1.2), bs.2.state), 0, d.halt, bs.2⟩)
        else if d.counter + 1 = MAX then
          some (Ev.data bs.1.1, ⟨some (none, bs.2.state), 0, d.halt, bs.2⟩)
        else
          some (Ev.data bs.1.1, ⟨none, d.counter + 1, d.halt, bs.2⟩)
      | none => some (Ev.bdy (Bdy.eof d.input.state), ⟨none, d.counter, true, d.input⟩)

/-- Fuel-indexed run of the `Delimited` iterator: the collected events
together with the iterator state left when `next` first returns `none`
(or fuel runs out; the fuel bound `2 * |source| + 2` is proved
sufficient). -/
def delimitedRunF (H : HashAlg) (W T MIN MAX : Nat) :
    Nat → DelimSt H → List (Ev H) × DelimSt H
  | 0, d => ([], d)
  | fuel + 1, d =>
    match delimitedNext H W T MIN MAX d with
    | none => ([], d)
    | some ed =>
      ((ed.1 :: (delimitedRunF H W T MIN MAX fuel ed.2).1),
        (delimitedRunF H W T MIN MAX fuel ed.2).2)

/-- The event sequence produced by polling `Delimited` to exhaustion,
starting from `Config::delimited`. -/
def delimitedRun (H : HashAlg) (W T MIN MAX : Nat) (src : List Nat) : List (Ev H) :=
  (delimitedRunF H W T MIN MAX (2 * src.length + 2) (Delimited.start H W src)).1

/-- Fuel-indexed run of `Splits` over `Delimited` (`src/iter.rs` lines
191-215): `Data` bytes are pushed onto the lazily-created `preparing`
buffer; on a boundary event the buffer is taken and yielded as a
`ResumableChunk` paired with `Boundary::into_state` (yielding nothing,
and ending the iteration, when no bytes had accumulated).  One unit of
fuel per poll of the underlying `Delimited`. -/
def splitsRunF (H : HashAlg) (W T MIN MAX : Nat) :
    Nat → Option (List Nat) → DelimSt H → List (List Nat × H.State)
  | 0, _, _ => []
  | fuel + 1, preparing, d =>
    match delimitedNext H W T MIN MAX d with
    | none => []
    | some ed =>
      match ed.1 with
      | Ev.data b => splitsRunF H W T MIN MAX fuel (some (preparing.getD [] ++ [b])) ed.2
      | Ev.bdy bd =>
        match preparing with
        | none => []
        | some prep => (prep, bd.intoState) :: splitsRunF H W T MIN MAX fuel none ed.2

/-- The chunk sequence produced by polling `Splits` (over `Delimited`,
as built by `Delimited::splits`) to exhaustion: each chunk is its byte
contents paired with the boundary state. -/
def splitsRun (H : HashAlg) (W T MIN MAX : Nat) (src : List Nat) :
    List (List Nat × H.State) :=
  splitsRunF H W T MIN MAX (2 * src.length + 2) none (Delimited.start H W src)

/-- State of `Distances`: run counter, halt flag, `Rolling` input. -/
structure DistSt (H : HashAlg) where
  counter : Nat
  halt : Bool
  input : RollingSt H

/-- Embedding of `Extent`: a chunk length (`NonZeroUsize`, kept as a
`Nat` whose positivity comes from `yieldExtent`) and its boundary. -/
structure ExtentE (H : HashAlg) where
  length : Nat
  boundary : Bdy H

/-- Embedding of `Distances::yield_extent`:
`NonZeroUsize::new(replace(&mut counter, 0))?` paired with the
boundary — `none` when the counter is zero. -/
def yieldExtent (H : HashAlg) (counter : Nat) (b : Bdy H) : Option (ExtentE H) :=
  if counter = 0 then none else some ⟨counter, b⟩

/-- Embedding of the `while let` loop inside `Distances::next`
(`src/iter.rs` lines 271-291), fuel-indexed by the number of loop
iterations (one per byte pulled; fuel `|source| + 1` is proved
sufficient, the `0` case is unreachable). -/
def distNextLoopF (H : HashAlg) (W T MIN MAX : Nat) :
    Nat → Nat → RollingSt H → Option (ExtentE H × DistSt H)
  | 0, _, _ => none
  | fuel + 1, counter, r =>
    match rollingNext H W r with
    | some sr =>
      if T ≤ H.lvl sr.1 ∧ MIN ≤ counter + 1 then
        (yieldExtent H (counter + 1) (Bdy.level (H.lvl sr.1) sr.2.state)).map
          (fun e => (e, ⟨0, false, sr.2⟩))
      else if counter + 1 = MAX then
        (yieldExtent H (counter + 1) (Bdy.capped sr.2.state)).map
          (fun e => (e, ⟨0, false, sr.2⟩))
      else distNextLoopF H W T MIN MAX fuel (counter + 1) sr.2
    | none =>
      (yieldExtent H counter (Bdy.eof r.state)).map (fun e => (e, ⟨0, true, r⟩))

/-- Embedding of `Distances::next`. -/
def distNext (H : HashAlg) (W T MIN MAX : Nat) (d : DistSt H) :
    Option (ExtentE H × DistSt H) :=
  if d.halt then none
  else distNextLoopF H W T MIN MAX (d.input.source.length + 1) d.counter d.input

/-- Fuel-indexed run of the `Distances` iterator. -/
def distRunF (H : HashAlg) (W T MIN MAX : Nat) : Nat → DistSt H → List (ExtentE H)
  | 0, _ => []
  | fuel + 1, d =>
    match distNext H W T MIN MAX d with
    | none => []
    | some ed => ed.1 :: distRunF H W T MIN MAX fuel ed.2

/-- The extent sequence produced by polling `Distances` to exhaustion,
starting from `Distances::start`. -/
def distRun (H : HashAlg) (W T MIN MAX : Nat) (src : List Nat) : List (ExtentE H) :=
  distRunF H W T MIN MAX (src.length + 2) ⟨0, false, Rolling.start H W src⟩

/-- Fuel-indexed run of `Spans` over `Distances` (`src/iter.rs` lines
327-343): each extent of length `n` slices `saved[..n]` off the saved
buffer and yields it with the boundary state. -/
def spansRunF (H : HashAlg) (W T MIN MAX : Nat) :
    Nat → List Nat → DistSt H → List (List Nat × H.State)
  | 0, _, _ => []
  | fuel + 1, saved, d =>
    match distNext H W T MIN MAX d with
    | none => []
    | some ed =>
      (saved.take ed.1.length, ed.1.boundary.intoState)
        :: spansRunF H W T MIN MAX fuel (saved.drop ed.1.length) ed.2

/-- The chunk sequence produced by polling `Spans` (as built by
`Spans::start` / `Config::spans` on an in-memory buffer) to
exhaustion. -/
def spansRun (H : HashAlg) (W T MIN MAX : Nat) (src : List Nat) :
    List (List Nat × H.State) :=
  spansRunF H W T MIN MAX (src.length + 2) src ⟨0, false, Rolling.start H W src⟩

/-! ## Recursive characterizations of the runs

These are proof-internal restatements of the iterator runs as plain
structural recursions over the remaining source; each is proved equal
to the corresponding fuel-indexed run. -/

/-- Events of `Delimited` from a canonical state (no staged boundary,
not halted), by recursion on the remaining source. -/
def partEvents (H : HashAlg) (W T MIN MAX : Nat) :
    Nat → H.State → Nat → List Nat → List Nat → List (Ev H)
  | _, st, _, _, [] => [Ev.bdy (Bdy.eof st)]
  | c, st, bg, ring, b :: rest =>
    let fr := feed H W ⟨st, bg, ring, rest⟩ b
    if T ≤ H.lvl fr.1 ∧ MIN ≤ c + 1 then
      Ev.data b :: Ev.bdy (Bdy.level (H.lvl fr.1) fr.2.state)
        :: partEvents H W T MIN MAX 0 fr.2.state fr.2.begin fr.2.ring rest
    else if c + 1 = MAX then
      Ev.data b :: Ev.bdy (Bdy.capped fr.2.state)
        :: partEvents H W T MIN MAX 0 fr.2.state fr.2.begin fr.2.ring rest
    else
      Ev.data b :: partEvents H W T MIN MAX (c + 1) fr.2.state fr.2.begin fr.2.ring rest

/-- Extents of `Distances` from a canonical state, by recursion on the
remaining source. -/
def partExtents (H : HashAlg) (W T MIN MAX : Nat) :
    Nat → H.State → Nat → List Nat → List Nat → List (ExtentE H)
  | c, st, _, _, [] => if c = 0 then [] else [⟨c, Bdy.eof st⟩]
  | c, st, bg, ring, b :: rest =>
    let fr := feed H W ⟨st, bg, ring, rest⟩ b
    if T ≤ H.lvl fr.1 ∧ MIN ≤ c + 1 then
      ExtentE.mk (c + 1) (Bdy.level (H.lvl fr.1) fr.2.state)
        :: partExtents H W T MIN MAX 0 fr.2.state fr.2.begin fr.2.ring rest
    else if c + 1 = MAX then
      ExtentE.mk (c + 1) (Bdy.capped fr.2.state)
        :: partExtents H W T MIN MAX 0 fr.2.state fr.2.begin fr.2.ring rest
    else partExtents H W T MIN MAX (c + 1) fr.2.state fr.2.begin fr.2.ring rest

/-- Chunks (byte contents and terminating boundary) cut from the
remaining source, accumulating the bytes of the open run in `acc`. -/
def partChunks (H : HashAlg) (W T MIN MAX : Nat) :
    List Nat → Nat → H.State → Nat → List Nat → List Nat → List (List Nat × Bdy H)
  | acc, _, st, _, _, [] => if acc.isEmpty then [] else [(acc, Bdy.eof st)]
  | acc, c, st, bg, ring, b :: rest =>
    let fr := feed H W ⟨st, bg, ring, rest⟩ b
    if T ≤ H.lvl fr.1 ∧ MIN ≤ c + 1 then
      (acc ++ [b], Bdy.level (H.lvl fr.1) fr.2.state)
        :: partChunks H W T MIN MAX [] 0 fr.2.state fr.2.begin fr.2.ring rest
    else if c + 1 = MAX then
      (acc ++ [b], Bdy.capped fr.2.state)
        :: partChunks H W T MIN MAX [] 0 fr.2.state fr.2.begin fr.2.ring rest
    else partChunks H W T MIN MAX (acc ++ [b]) (c + 1) fr.2.state fr.2.begin fr.2.ring rest

/-- Chunk collection of `Splits` as a pure function of an event list:
the mirror of `splitsRunF` on the already-produced events. -/
def chunksFromEvents (H : HashAlg) :
    Option (List Nat) → List (Ev H) → List (List Nat × H.State)
  | _, [] => []
  | prep, Ev.data b :: rest => chunksFromEvents H (some (prep.getD [] ++ [b])) rest
  | none, Ev.bdy _ :: _ => []
  | some acc, Ev.bdy bd :: rest => (acc, bd.intoState) :: chunksFromEvents H none rest

/-- Chunk collection of `Spans` as a pure function of an extent list. -/
def spansFromExtents (H : HashAlg) :
    List Nat → List (ExtentE H) → List (List Nat × H.State)
  | _, [] => []
  | saved, e :: rest =>
    (saved.take e.length, e.boundary.intoState)
      :: spansFromExtents H (saved.drop e.length) rest

/-- Decidable check of the guaranteed output grammar
`Data* (Boundary | Capped) (Data* (Boundary | Capped))* Data* Eof`
strengthened by the spec's adjacency requirement: `Level`/`Capped`
events are accepted only when the previous event was `Data` (tracked
by the flag), and exactly one `Eof` is accepted, in final position. -/
def gram (H : HashAlg) : Bool → List (Ev H) → Bool
  | _, [] => false
  | _, Ev.data _ :: rest => gram H true rest
  | _, Ev.bdy (Bdy.eof _) :: rest => rest.isEmpty
  | true, Ev.bdy (Bdy.level _ _) :: rest => gram H false rest
  | true, Ev.bdy (Bdy.capped _) :: rest => gram H false rest
  | false, Ev.bdy (Bdy.level _ _) :: _ => false
  | false, Ev.bdy (Bdy.capped _) :: _ => false

/-- The `TrivialHasher` of the crate's test module (`src/lib.rs` lines
437-455): unit state, and the checksum of a byte is the byte itself
(`Checksum = u8`, whose `Leveled` impl is the 8-bit trailing-zero
count). -/
def trivialHasher : HashAlg where
  State := PUnit
  Sum := Nat
  init := PUnit.unit
  proc := fun _ _ new => (new, PUnit.unit)
  lvl := trailingZeros 8

/-! ## Arithmetic bridge lemmas -/

theorem two32_pos : 0 < two32 := by decide

theorem add32_lt (x y : Nat) : add32 x y < two32 :=
  Nat.mod_lt _ two32_pos

theorem sub32_lt (x y : Nat) : sub32 x y < two32 :=
  Nat.mod_lt _ two32_pos

theorem mul32_lt (x y : Nat) : mul32 x y < two32 :=
  Nat.mod_lt _ two32_pos

theorem add32_int (x y : Nat) :
    ((add32 x y : Nat) : Int) = ((x : Int) + y) % (2 ^ 32 : Int) := by
  have h : ((two32 : Nat) : Int) = (2 ^ 32 : Int) := by decide
  simp [add32, Int.ofNat_emod, h]

theorem sub32_int (x y : Nat) :
    ((sub32 x y : Nat) : Int) = ((x : Int) - y) % (2 ^ 32 : Int) := by
  have h : (2 ^ 32 : Int) = 4294967296 := by norm_num
  simp only [sub32, two32, h]
  omega

theorem mul32_int (x y : Nat) :
    ((mul32 x y : Nat) : Int) = ((x : Int) * y) % (2 ^ 32 : Int) := by
  have h : ((two32 : Nat) : Int) = (2 ^ 32 : Int) := by decide
  simp [mul32, Int.ofNat_emod, h]

theorem int_mod_modEq (y n : Int) : y % n ≡ y [ZMOD n] :=
  Int.emod_emod_of_dvd y (dvd_refl n)

theorem mod32_mod_int (x : Int) (M : Nat) (hdvd : M ∣ 2 ^ 32) :
    x % (2 ^ 32 : Int) % (M : Int) = x % (M : Int) :=
  Int.emod_emod_of_dvd x (by exact_mod_cast hdvd)

theorem primePowAux_eq (n : Nat) :
    ∀ pow, pow < two32 → primePowAux n pow = pow * 65521 ^ n % two32 := by
  induction n with
  | zero => intro pow hp; simp [primePowAux, Nat.mod_eq_of_lt hp]
  | succ n ih =>
    intro pow hp
    rw [primePowAux, ih _ (mul32_lt _ _)]
    show Nat.ModEq two32 (pow * 65521 % two32 * 65521 ^ n) (pow * 65521 ^ (n + 1))
    calc pow * 65521 % two32 * 65521 ^ n
        ≡ pow * 65521 * 65521 ^ n [MOD two32] :=
          Nat.ModEq.mul_right _ (Nat.mod_modEq _ _)
      _ = pow * 65521 ^ (n + 1) := by ring

theorem primePow_eq (W : Nat) : primePow W = 65521 ^ W % two32 := by
  rw [primePow, primePowAux_eq W 1 (by decide), Nat.one_mul]

/-! ## C8: config display -/

theorem sizeDisplay_eq_sizeSpec (z : Nat) : sizeDisplay z = sizeSpec z := by
  simp only [sizeDisplay, sizeSpec, Nat.shiftRight_eq_div_pow,
    Nat.dvd_iff_mod_eq_zero]

/-- C8: for every THRESHOLD, algorithm name, MIN_SIZE and MAX_SIZE the
configuration formats to
`HashSplit_<THRESHOLD>_<AlgorithmName>_<MinSizeHuman>_<MaxSizeHuman>`,
where a size renders with the `Gi`/`Mi`/`Ki` unit rule of the claim
(`sizeSpec`); in particular `(13, "RRS1", 65536, 2097152)` formats to
`"HashSplit_13_RRS1_64Ki_2Mi"`. -/
theorem config_display_format :
    (∀ t name mn mx, configDisplay t name mn mx
      = "HashSplit_" ++ toString t ++ "_" ++ name ++ "_"
          ++ sizeSpec mn ++ "_" ++ sizeSpec mx) ∧
    configDisplay 13 "RRS1" 65536 2097152 = "HashSplit_13_RRS1_64Ki_2Mi" := by
  constructor
  · intro t name mn mx
    simp [configDisplay, sizeDisplay_eq_sizeSpec]
  · rfl

/-! ## C4: significance levels -/

theorem trailingZeros_spec (w : Nat) : ∀ x, x < 2 ^ w →
    (x ≠ 0 → 2 ^ trailingZeros w x ∣ x ∧ ¬ 2 ^ (trailingZeros w x + 1) ∣ x) ∧
    (x = 0 → trailingZeros w x = w) := by
  induction w with
  | zero =>
    intro x hx
    interval_cases x
    exact ⟨fun h => absurd rfl h, fun _ => rfl⟩
  | succ w ih =>
    intro x hx
    by_cases hpar : x % 2 = 1
    · refine ⟨fun hx0 => ?_, fun hx0 => ?_⟩
      · rw [trailingZeros, if_pos hpar]
        refine ⟨one_dvd x, fun hdvd => ?_⟩
        rw [pow_one] at hdvd
        omega
      · subst hx0; simp at hpar
    · have hx2 : x = 2 * (x / 2) := by omega
      have hlt : x / 2 < 2 ^ w := by
        rw [pow_succ] at hx; omega
      have ihx := ih (x / 2) hlt
      rw [trailingZeros, if_neg hpar]
      refine ⟨fun hx0 => ?_, fun hx0 => ?_⟩
      · have hhalf : x / 2 ≠ 0 := by omega
        obtain ⟨hdvd, hndvd⟩ := ihx.1 hhalf
        constructor
        · nth_rewrite 2 [hx2]
          rw [pow_succ']
          exact mul_dvd_mul_left 2 hdvd
        · intro hbad
          apply hndvd
          nth_rewrite 2 [hx2] at hbad
          rw [pow_succ'] at hbad
          exact (Nat.mul_dvd_mul_iff_left (by norm_num : 0 < 2)).mp hbad
      · have h0 : x / 2 = 0 := by omega
        have hw := ihx.2 h0
        rw [h0] at hw ⊢
        rw [hw]

/-- C4 counterexample: the claim asserts boolean checksums map to `0`
for `false` and `1` for `true`, but the source (`!self as u32`) gives
`level(false) = 1` and `level(true) = 0`. -/
theorem level_bool_cex : ¬ (levelBool false = 0 ∧ levelBool true = 1) := by
  decide

/-- C4 (amended): the significance-level function is the trailing-zero
count for integer checksums — for a `w`-bit pattern `x` it is the exact
2-adic valuation of `x` (the power of two dividing `x` whose successor
does not), and `w` for the all-zero pattern — and for boolean checksums
it returns `1` for `false` and `0` for `true`. -/
theorem level_trailing_zeros (w x : Nat) (hx : x < 2 ^ w) :
    ((x ≠ 0 → 2 ^ trailingZeros w x ∣ x ∧ ¬ 2 ^ (trailingZeros w x + 1) ∣ x) ∧
      (x = 0 → trailingZeros w x = w)) ∧
    (levelBool false = 1 ∧ levelBool true = 0) :=
  ⟨trailingZeros_spec w x hx, by decide⟩

/-- C4 witness: the 8-bit pattern `12` has trailing-zero level `2`. -/
theorem level_trailing_zeros_witness :
    (12 < 2 ^ 8) ∧
    (((12 ≠ 0 → 2 ^ trailingZeros 8 12 ∣ 12 ∧ ¬ 2 ^ (trailingZeros 8 12 + 1) ∣ 12) ∧
        (12 = 0 → trailingZeros 8 12 = 8)) ∧
      (levelBool false = 1 ∧ levelBool true = 0)) :=
  ⟨by decide, level_trailing_zeros 8 12 (by decide)⟩

/-! ## C5: RRS update rule -/

theorem rrs_a_new_int (M a old new : Nat) (hdvd : M ∣ 2 ^ 32) :
    ((add32 (sub32 a old) new % M : Nat) : Int)
      = ((a : Int) - old + new) % (M : Int) := by
  rw [Int.ofNat_emod, add32_int, sub32_int, Int.emod_add_emod,
    mod32_mod_int _ _ hdvd]

theorem rrs_b_new_int (M b old off ww an : Nat) (hdvd : M ∣ 2 ^ 32) :
    ((add32 (sub32 b (mul32 ww (add32 old off))) an % M : Nat) : Int)
      = ((b : Int) - ww * ((old : Int) + off) + an) % (M : Int) := by
  rw [Int.ofNat_emod]
  have key : ((add32 (sub32 b (mul32 ww (add32 old off))) an : Nat) : Int)
      ≡ (b : Int) - ww * ((old : Int) + off) + an [ZMOD (2 ^ 32 : Int)] := by
    rw [add32_int, sub32_int, mul32_int, add32_int]
    have m1 : ((ww : Int) * (((old : Int) + off) % (2 ^ 32 : Int))) % (2 ^ 32 : Int)
        ≡ (ww : Int) * ((old : Int) + off) [ZMOD (2 ^ 32 : Int)] :=
      (int_mod_modEq _ _).trans ((int_mod_modEq _ _).mul_left (ww : Int))
    have m2 : (b : Int) - ((ww : Int) * (((old : Int) + off) % (2 ^ 32 : Int))) % (2 ^ 32 : Int)
        ≡ (b : Int) - (ww : Int) * ((old : Int) + off) [ZMOD (2 ^ 32 : Int)] :=
      (Int.ModEq.refl (b : Int)).sub m1
    have m3 := ((int_mod_modEq _ (2 ^ 32 : Int)).trans m2).add_right (an : Int)
    exact (int_mod_modEq _ _).trans m3
  calc ((add32 (sub32 b (mul32 ww (add32 old off))) an : Nat) : Int) % (M : Int)
      = ((add32 (sub32 b (mul32 ww (add32 old off))) an : Nat) : Int)
          % (2 ^ 32 : Int) % (M : Int) := by
        rw [Int.emod_emod_of_dvd _ (by exact_mod_cast hdvd)]
    _ = ((b : Int) - ww * ((old : Int) + off) + an) % (2 ^ 32 : Int) % (M : Int) := by
        rw [key]
    _ = ((b : Int) - ww * ((old : Int) + off) + an) % (M : Int) :=
        mod32_mod_int _ _ hdvd

/-- C5 counterexample: the claim's "mathematical modulus" reading fails
for the crate's own `Rrs1 = Rrs<25_536, 31>`: at state `(0, 0)` with
`old = 1`, `new = 0`, the code computes
`a' = ((0 - 1 + 0) mod 2^32) % 25536 = 16383`, while
`(0 - 1 + 0) mod 25536 = 25535`. -/
theorem rrs_modulus_cex :
    ¬ (((rrsProcessByte 25536 31 64 0 0 1 0).2.1 : Int)
        = ((0 : Int) - 1 + 0) % (25536 : Int)) := by
  decide

/-- C5 (amended): for every RRS instance whose `MODULUS` divides `2^32`
and is at most `2^16` (as for the classic `2^16` modulus — for other
moduli, such as the crate's `Rrs1` modulus `25_536`, the `u32`
wraparound changes the result, see the counterexample), every state
`(a, b)` with `a < MODULUS`, `b < MODULUS` and all bytes `old`, `new`:
`process_byte` returns `(a', b')` with `a' = (a - old + new) mod MODULUS`
and `b' = (b - W*(old+OFFSET) + a') mod MODULUS` (mathematical modulus,
result in `[0, MODULUS)`), and the checksum packs `a'` and `b'` into
the high and low 16 bits respectively. -/
theorem rrs_process_byte_math (MODULUS OFFSET W a b old new : Nat)
    (hM0 : 0 < MODULUS) (hdvd : MODULUS ∣ 2 ^ 32) (hM16 : MODULUS ≤ 65536)
    (ha : a < MODULUS) (hb : b < MODULUS) (hold : old < 256) (hnew : new < 256) :
    ((rrsProcessByte MODULUS OFFSET W a b old new).2.1 : Int)
        = ((a : Int) - old + new) % (MODULUS : Int) ∧
    ((rrsProcessByte MODULUS OFFSET W a b old new).2.2 : Int)
        = ((b : Int) - W * ((old : Int) + OFFSET)
            + ((rrsProcessByte MODULUS OFFSET W a b old new).2.1 : Int))
          % (MODULUS : Int) ∧
    (rrsProcessByte MODULUS OFFSET W a b old new).1
        = (rrsProcessByte MODULUS OFFSET W a b old new).2.1 * 65536
          + (rrsProcessByte MODULUS OFFSET W a b old new).2.2 := by
  refine ⟨rrs_a_new_int MODULUS a old new hdvd, ?_, ?_⟩
  · exact rrs_b_new_int MODULUS b old OFFSET W _ hdvd
  · have han : add32 (sub32 a old) new % MODULUS < 65536 :=
      lt_of_lt_of_le (Nat.mod_lt _ hM0) hM16
    have hbn : add32 (sub32 b (mul32 W (add32 old OFFSET)))
        (add32 (sub32 a old) new % MODULUS) % MODULUS < 65536 :=
      lt_of_lt_of_le (Nat.mod_lt _ hM0) hM16
    show add32 (add32 (sub32 b (mul32 W (add32 old OFFSET)))
        (add32 (sub32 a old) new % MODULUS) % MODULUS)
        (shl16 (add32 (sub32 a old) new % MODULUS))
      = add32 (sub32 a old) new % MODULUS * 65536
        + add32 (sub32 b (mul32 W (add32 old OFFSET)))
            (add32 (sub32 a old) new % MODULUS) % MODULUS
    rw [shl16, add32]
    rw [Nat.mod_eq_of_lt (show add32 (sub32 a old) new % MODULUS * 65536 < two32 by
      unfold two32; omega)]
    rw [Nat.mod_eq_of_lt (show add32 (sub32 b (mul32 W (add32 old OFFSET)))
        (add32 (sub32 a old) new % MODULUS) % MODULUS
        + add32 (sub32 a old) new % MODULUS * 65536 < two32 by
      unfold two32; omega)]
    omega

/-- C5 witness: the amended statement instantiated at the classic
modulus `2^16` with offset 31, width 64, state `(1, 2)`, bytes
`old = 3`, `new = 4`. -/
theorem rrs_process_byte_math_witness :
    (0 < 65536 ∧ (65536 : Nat) ∣ 2 ^ 32 ∧ (65536 : Nat) ≤ 65536
      ∧ 1 < 65536 ∧ 2 < 65536 ∧ 3 < 256 ∧ 4 < 256) ∧
    (((rrsProcessByte 65536 31 64 1 2 3 4).2.1 : Int)
        = ((1 : Int) - 3 + 4) % (65536 : Int) ∧
      ((rrsProcessByte 65536 31 64 1 2 3 4).2.2 : Int)
        = ((2 : Int) - 64 * ((3 : Int) + 31)
            + ((rrsProcessByte 65536 31 64 1 2 3 4).2.1 : Int)) % (65536 : Int) ∧
      (rrsProcessByte 65536 31 64 1 2 3 4).1
        = (rrsProcessByte 65536 31 64 1 2 3 4).2.1 * 65536
          + (rrsProcessByte 65536 31 64 1 2 3 4).2.2) :=
  ⟨by norm_num,
    rrs_process_byte_math 65536 31 64 1 2 3 4 (by norm_num) (by norm_num)
      (by norm_num) (by norm_num) (by norm_num) (by norm_num) (by norm_num)⟩

/-! ## C9: Bozo32 update rule -/

/-- C9: for every window width, `Bozo32::process_byte` returns checksum
and new state both equal to
`(state * 65521 + new - old * 65521^W) mod 2^32`, where the
precomputed `PRIME_POW` is the wrapping power `65521^W mod 2^32`. -/
theorem bozo_process_byte_math (W state old new : Nat)
    (hs : state < two32) (ho : old < 256) (hn : new < 256) :
    ((bozoProcessByte W state old new).1 : Int)
        = ((state : Int) * 65521 + new - old * 65521 ^ W) % (2 ^ 32 : Int) ∧
    (bozoProcessByte W state old new).2 = (bozoProcessByte W state old new).1 := by
  refine ⟨?_, rfl⟩
  show ((sub32 (add32 (mul32 state 65521) new) (mul32 old (primePow W)) : Nat) : Int) = _
  have hlt : sub32 (add32 (mul32 state 65521) new) (mul32 old (primePow W)) < two32 :=
    sub32_lt _ _
  have h2 : ((two32 : Nat) : Int) = (2 ^ 32 : Int) := by decide
  have hpp : ((primePow W : Nat) : Int) = ((65521 : Int) ^ W) % (2 ^ 32 : Int) := by
    rw [primePow_eq, Int.ofNat_emod, h2]
    push_cast
    rfl
  have key : ((sub32 (add32 (mul32 state 65521) new) (mul32 old (primePow W)) : Nat) : Int)
      ≡ (state : Int) * 65521 + new - old * 65521 ^ W [ZMOD (2 ^ 32 : Int)] := by
    rw [sub32_int, add32_int, mul32_int, mul32_int, hpp]
    have ma : ((state : Int) * 65521) % (2 ^ 32 : Int)
        ≡ (state : Int) * 65521 [ZMOD (2 ^ 32 : Int)] := int_mod_modEq _ _
    have mb : (((state : Int) * 65521) % (2 ^ 32 : Int) + new) % (2 ^ 32 : Int)
        ≡ (state : Int) * 65521 + new [ZMOD (2 ^ 32 : Int)] :=
      (int_mod_modEq _ _).trans (ma.add_right _)
    have mc : ((old : Int) * (((65521 : Int) ^ W) % (2 ^ 32 : Int))) % (2 ^ 32 : Int)
        ≡ (old : Int) * 65521 ^ W [ZMOD (2 ^ 32 : Int)] :=
      (int_mod_modEq _ _).trans ((int_mod_modEq _ _).mul_left (old : Int))
    exact (int_mod_modEq _ _).trans (mb.sub mc)
  calc ((sub32 (add32 (mul32 state 65521) new) (mul32 old (primePow W)) : Nat) : Int)
      = ((sub32 (add32 (mul32 state 65521) new) (mul32 old (primePow W)) : Nat) : Int)
          % (2 ^ 32 : Int) := by
        rw [Int.emod_eq_of_lt (Int.ofNat_nonneg _) (by exact_mod_cast h2 ▸ Int.ofNat_lt.mpr hlt)]
    _ = ((state : Int) * 65521 + new - old * 65521 ^ W) % (2 ^ 32 : Int) := key

/-- C9 witness: the statement instantiated at `W = 2`, state 1,
`old = 1`, `new = 0`. -/
theorem bozo_process_byte_math_witness :
    (1 < two32 ∧ 1 < 256 ∧ 0 < 256) ∧
    (((bozoProcessByte 2 1 1 0).1 : Int)
        = ((1 : Int) * 65521 + 0 - 1 * 65521 ^ 2) % (2 ^ 32 : Int) ∧
      (bozoProcessByte 2 1 1 0).2 = (bozoProcessByte 2 1 1 0).1) :=
  ⟨by refine ⟨?_, by norm_num, by norm_num⟩; decide,
    bozo_process_byte_math 2 1 1 0 (by decide) (by norm_num) (by norm_num)⟩

/-! ## C10: ring-buffer cursor invariant -/

theorem feed_preserves_inv (H : HashAlg) (W : Nat) (r : RollingSt H) (byte : Nat)
    (hW : 0 < W) (hb : r.begin < W) (hr : r.ring.length = W) :
    (feed H W r byte).2.begin < W ∧ (feed H W r byte).2.ring.length = W := by
  constructor
  · show (if r.begin + 1 = W then 0 else r.begin + 1) < W
    by_cases h : r.begin + 1 = W
    · rw [if_pos h]; exact hW
    · rw [if_neg h]; omega
  · show (r.ring.set r.begin byte).length = W
    rw [List.length_set, hr]

theorem feedAll_inv (H : HashAlg) (W : Nat) (hW : 0 < W) (bytes : List Nat) :
    ∀ r : RollingSt H, r.begin < W → r.ring.length = W →
      (feedAll H W r bytes).begin < W ∧ (feedAll H W r bytes).ring.length = W := by
  induction bytes with
  | nil => intro r hb hr; exact ⟨hb, hr⟩
  | cons b rest ih =>
    intro r hb hr
    obtain ⟨hb', hr'⟩ := feed_preserves_inv H W r b hW hb hr
    exact ih _ hb' hr'

/-- C10: for every hasher and window width (the width is positive:
`NonZeroUsize` in `src/lib.rs`, and the crate constant `WINDOW_SIZE`
in `src/iter.rs`), the write cursor is strictly below the width after
construction and after every `feed`, the ring length stays equal to
the width, and each `feed`'s single ring read/write index (`begin`)
is in bounds — so `feed` never faults on indexing, for every input
byte sequence. -/
theorem rolling_feed_in_bounds (H : HashAlg) (W : Nat) (hW : 0 < W)
    (src bytes : List Nat) :
    ((Rolling.start H W src).begin < W
      ∧ (Rolling.start H W src).ring.length = W) ∧
    (∀ (r : RollingSt H) (byte : Nat), r.begin < W → r.ring.length = W →
      r.begin < r.ring.length
        ∧ (feed H W r byte).2.begin < W
        ∧ (feed H W r byte).2.ring.length = W) ∧
    ((feedAll H W (Rolling.start H W src) bytes).begin < W
      ∧ (feedAll H W (Rolling.start H W src) bytes).ring.length = W) := by
  refine ⟨⟨hW, List.length_replicate _ _⟩, ?_, ?_⟩
  · intro r byte hb hr
    exact ⟨hr ▸ hb, feed_preserves_inv H W r byte hW hb hr⟩
  · exact feedAll_inv H W hW bytes _ hW (List.length_replicate _ _)

/-- C10 witness: the invariant instantiated for the crate's
`TrivialHasher` at width 3 and a concrete input. -/
theorem rolling_feed_in_bounds_witness :
    (0 < 3) ∧
    (((Rolling.start trivialHasher 3 [1, 2]).begin < 3
        ∧ (Rolling.start trivialHasher 3 [1, 2]).ring.length = 3) ∧
      (∀ (r : RollingSt trivialHasher) (byte : Nat), r.begin < 3 → r.ring.length = 3 →
        r.begin < r.ring.length
          ∧ (feed trivialHasher 3 r byte).2.begin < 3
          ∧ (feed trivialHasher 3 r byte).2.ring.length = 3) ∧
      ((feedAll trivialHasher 3 (Rolling.start trivialHasher 3 [1, 2]) [5, 6, 7]).begin < 3
        ∧ (feedAll trivialHasher 3
            (Rolling.start trivialHasher 3 [1, 2]) [5, 6, 7]).ring.length = 3)) :=
  ⟨by decide, rolling_feed_in_bounds trivialHasher 3 (by decide) [1, 2] [5, 6, 7]⟩

/-! ## C6: batched updates with mismatched lengths -/

theorem zip_eq_zip_take (l1 l2 : List Nat) :
    l1.zip l2 = (l1.take (min l1.length l2.length)).zip
      (l2.take (min l1.length l2.length)) := by
  induction l1 generalizing l2 with
  | nil => simp
  | cons a l1 ih =>
    cases l2 with
    | nil => simp
    | cons b l2 =>
      simp only [List.zip_cons_cons, List.length_cons]
      rw [Nat.succ_min_succ, List.take_succ_cons, List.take_succ_cons,
        List.zip_cons_cons, ih l2]

/-- C6 counterexample: the claim says a batched update on old/new
sequences of different lengths fails with a hard assertion; but
`Thinned::process_block` only asserts `old_block.len() == BLOCK_SIZE`,
so with `BLOCK_SIZE = 2`, `old_block = [1, 2]` and a shorter
`new_block = [3]` it returns a checksum/state computed from the zip
silently truncated to one pair (here with the `Rrs1`-style hasher at
modulus `2^16`). -/
theorem process_block_mismatch_cex :
    processBlock 2 (fun st old new => rrsProcessByte 65536 31 64 st.1 st.2 old new)
        0 (0, 0) [1, 2] [3]
      = some (194562, (2, 63490)) := by
  decide

/-- C6 (amended): on old/new sequences of different lengths, the
provided batched updates do not fail loudly on the mismatch itself:
`Thinned::process_block` fails with its hard assertion exactly when
the old block's length differs from `BLOCK_SIZE` (and otherwise
returns the fold over the zip of the blocks, truncated to the shorter
length), while `Hasher::process_slice` performs no length check at all
and returns the same result as on the two inputs truncated to their
common length. -/
theorem batched_mismatch {σ χ : Type} (BS : Nat) (procByteB : σ → Nat → Nat → χ × σ)
    (procByteS : σ → Nat → Nat → Nat → χ × σ) (dflt : χ) (st : σ) (width : Nat)
    (old new : List Nat) (hmis : old.length ≠ new.length) :
    (old.length ≠ BS → processBlock BS procByteB dflt st old new = none) ∧
    (old.length = BS → processBlock BS procByteB dflt st old new
      = some (processSequence procByteB dflt st
          ((old.take (min old.length new.length)).zip
            (new.take (min old.length new.length))))) ∧
    processSlice procByteS dflt st width old new
      = processSlice procByteS dflt st width
          (old.take (min old.length new.length))
          (new.take (min old.length new.length)) := by
  refine ⟨fun hne => ?_, fun heq => ?_, ?_⟩
  · rw [processBlock, if_neg hne]
  · rw [processBlock, if_pos heq, zip_eq_zip_take]
  · rw [processSlice, processSlice, zip_eq_zip_take]

/-- C6 witness: the amended statement instantiated at `BLOCK_SIZE = 2`,
`old = [1, 2]`, `new = [3]`, with the `Rrs1`-style hasher. -/
theorem batched_mismatch_witness :
    (([1, 2] : List Nat).length ≠ ([3] : List Nat).length) ∧
    ((([1, 2] : List Nat).length ≠ 2 →
        processBlock 2 (fun (st : Nat × Nat) old new =>
          rrsProcessByte 65536 31 64 st.1 st.2 old new) 0 (0, 0) [1, 2] [3] = none) ∧
      (([1, 2] : List Nat).length = 2 →
        processBlock 2 (fun (st : Nat × Nat) old new =>
          rrsProcessByte 65536 31 64 st.1 st.2 old new) 0 (0, 0) [1, 2] [3]
          = some (processSequence (fun (st : Nat × Nat) old new =>
              rrsProcessByte 65536 31 64 st.1 st.2 old new) 0 (0, 0)
              ((([1, 2] : List Nat).take
                  (min ([1, 2] : List Nat).length ([3] : List Nat).length)).zip
                (([3] : List Nat).take
                  (min ([1, 2] : List Nat).length ([3] : List Nat).length))))) ∧
      processSlice (fun (st : Nat × Nat) _w old new =>
          rrsProcessByte 65536 31 64 st.1 st.2 old new) 0 (0, 0) 64 [1, 2] [3]
        = processSlice (fun (st : Nat × Nat) _w old new =>
            rrsProcessByte 65536 31 64 st.1 st.2 old new) 0 (0, 0) 64
            (([1, 2] : List Nat).take
              (min ([1, 2] : List Nat).length ([3] : List Nat).length))
            (([3] : List Nat).take
              (min ([1, 2] : List Nat).length ([3] : List Nat).length))) :=
  ⟨by decide,
    batched_mismatch 2 (fun (st : Nat × Nat) old new =>
        rrsProcessByte 65536 31 64 st.1 st.2 old new)
      (fun (st : Nat × Nat) _w old new =>
        rrsProcessByte 65536 31 64 st.1 st.2 old new)
      0 (0, 0) 64 [1, 2] [3] (by decide)⟩

/-! ## Characterization of the `Delimited` run -/

theorem delimitedRunF_succ (H : HashAlg) (W T MIN MAX fuel : Nat) (d : DelimSt H) :
    delimitedRunF H W T MIN MAX (fuel + 1) d
      = match delimitedNext H W T MIN MAX d with
        | none => ([], d)
        | some ed =>
          ((ed.1 :: (delimitedRunF H W T MIN MAX fuel ed.2).1),
            (delimitedRunF H W T MIN MAX fuel ed.2).2) := rfl

theorem delimitedRunF_eq_partEvents (H : HashAlg) (W T MIN MAX : Nat) :
    ∀ (src : List Nat) (fuel c : Nat) (st : H.State) (bg : Nat) (ring : List Nat),
      2 * src.length + 2 ≤ fuel →
      (delimitedRunF H W T MIN MAX fuel ⟨none, c, false, ⟨st, bg, ring, src⟩⟩).1
          = partEvents H W T MIN MAX c st bg ring src
        ∧ (delimitedRunF H W T MIN MAX fuel
            ⟨none, c, false, ⟨st, bg, ring, src⟩⟩).2.halt = true
        ∧ delimitedNext H W T MIN MAX
            (delimitedRunF H W T MIN MAX fuel ⟨none, c, false, ⟨st, bg, ring, src⟩⟩).2
          = none := by
  intro src
  induction src with
  | nil =>
    intro fuel c st bg ring hfuel
    obtain ⟨f, rfl⟩ : ∃ f, fuel = f + 1 + 1 := ⟨fuel - 2, by omega⟩
    have hnext : delimitedNext H W T MIN MAX
        ⟨none, c, false, ⟨st, bg, ring, []⟩⟩
        = some (Ev.bdy (Bdy.eof st), ⟨none, c, true, ⟨st, bg, ring, []⟩⟩) := by
      simp [delimitedNext, withRollingNext]
    have hhalt : delimitedNext H W T MIN MAX
        ⟨none, c, true, ⟨st, bg, ring, ([] : List Nat)⟩⟩ = none := by
      simp [delimitedNext]
    rw [delimitedRunF_succ, hnext]
    dsimp only
    rw [delimitedRunF_succ, hhalt]
    exact ⟨by simp [partEvents], rfl, hhalt⟩
  | cons b rest ih =>
    intro fuel c st bg ring hfuel
    by_cases h1 : T ≤ H.lvl (feed H W ⟨st, bg, ring, rest⟩ b).1 ∧ MIN ≤ c + 1
    · obtain ⟨f, rfl⟩ : ∃ f, fuel = f + 1 + 1 := ⟨fuel - 2, by omega⟩
      have hnext : delimitedNext H W T MIN MAX
          ⟨none, c, false, ⟨st, bg, ring, b :: rest⟩⟩
          = some (Ev.data b,
              ⟨some (some (H.lvl (feed H W ⟨st, bg, ring, rest⟩ b).1),
                (feed H W ⟨st, bg, ring, rest⟩ b).2.state), 0, false,
                (feed H W ⟨st, bg, ring, rest⟩ b).2⟩) := by
        simp [delimitedNext, withRollingNext, h1]
      have hnext2 : delimitedNext H W T MIN MAX
          ⟨some (some (H.lvl (feed H W ⟨st, bg, ring, rest⟩ b).1),
            (feed H W ⟨st, bg, ring, rest⟩ b).2.state), 0, false,
            (feed H W ⟨st, bg, ring, rest⟩ b).2⟩
          = some (Ev.bdy (Bdy.level (H.lvl (feed H W ⟨st, bg, ring, rest⟩ b).1)
              (feed H W ⟨st, bg, ring, rest⟩ b).2.state),
              ⟨none, 0, false, (feed H W ⟨st, bg, ring, rest⟩ b).2⟩) := by
        simp [delimitedNext]
      have hrest := ih f 0 (feed H W ⟨st, bg, ring, rest⟩ b).2.state
        (feed H W ⟨st, bg, ring, rest⟩ b).2.begin
        (feed H W ⟨st, bg, ring, rest⟩ b).2.ring (by simp at hfuel ⊢; omega)
      rw [delimitedRunF_succ, hnext]
      dsimp only
      rw [delimitedRunF_succ, hnext2]
      dsimp only
      refine ⟨?_, hrest.2.1, hrest.2.2⟩
      simp only [partEvents, if_pos h1]
      exact congrArg (fun l => Ev.data b :: Ev.bdy _ :: l) hrest.1
    · by_cases h2 : c + 1 = MAX
      · obtain ⟨f, rfl⟩ : ∃ f, fuel = f + 1 + 1 := ⟨fuel - 2, by omega⟩
        have hnext : delimitedNext H W T MIN MAX
            ⟨none, c, false, ⟨st, bg, ring, b :: rest⟩⟩
            = some (Ev.data b,
                ⟨some (none, (feed H W ⟨st, bg, ring, rest⟩ b).2.state), 0, false,
                  (feed H W ⟨st, bg, ring, rest⟩ b).2⟩) := by
          simp only [delimitedNext, withRollingNext]
          rw [if_neg h1, if_pos h2]
          rfl
        have hnext2 : delimitedNext H W T MIN MAX
            ⟨some (none, (feed H W ⟨st, bg, ring, rest⟩ b).2.state), 0, false,
              (feed H W ⟨st, bg, ring, rest⟩ b).2⟩
            = some (Ev.bdy (Bdy.capped (feed H W ⟨st, bg, ring, rest⟩ b).2.state),
                ⟨none, 0, false, (feed H W ⟨st, bg, ring, rest⟩ b).2⟩) := by
          simp [delimitedNext]
        have hrest := ih f 0 (feed H W ⟨st, bg, ring, rest⟩ b).2.state
          (feed H W ⟨st, bg, ring, rest⟩ b).2.begin
          (feed H W ⟨st, bg, ring, rest⟩ b).2.ring (by simp at hfuel ⊢; omega)
        rw [delimitedRunF_succ, hnext]
        dsimp only
        rw [delimitedRunF_succ, hnext2]
        dsimp only
        refine ⟨?_, hrest.2.1, hrest.2.2⟩
        simp only [partEvents, if_neg h1, if_pos h2]
        exact congrArg (fun l => Ev.data b :: Ev.bdy _ :: l) hrest.1
      · obtain ⟨f, rfl⟩ : ∃ f, fuel = f + 1 := ⟨fuel - 1, by omega⟩
        have hnext : delimitedNext H W T MIN MAX
            ⟨none, c, false, ⟨st, bg, ring, b :: rest⟩⟩
            = some (Ev.data b,
                ⟨none, c + 1, false, (feed H W ⟨st, bg, ring, rest⟩ b).2⟩) := by
          simp [delimitedNext, withRollingNext, h1, h2]
        have hrest := ih f (c + 1) (feed H W ⟨st, bg, ring, rest⟩ b).2.state
          (feed H W ⟨st, bg, ring, rest⟩ b).2.begin
          (feed H W ⟨st, bg, ring, rest⟩ b).2.ring (by simp at hfuel ⊢; omega)
        rw [delimitedRunF_succ, hnext]
        dsimp only
        refine ⟨?_, hrest.2.1, hrest.2.2⟩
        simp only [partEvents, if_neg h1, if_neg h2]
        exact congrArg (fun l => Ev.data b :: l) hrest.1

/-! ## Characterization of the `Splits` run -/

theorem splitsRunF_succ (H : HashAlg) (W T MIN MAX fuel : Nat)
    (prep : Option (List Nat)) (d : DelimSt H) :
    splitsRunF H W T MIN MAX (fuel + 1) prep d
      = match delimitedNext H W T MIN MAX d with
        | none => []
        | some ed =>
          match ed.1 with
          | Ev.data b => splitsRunF H W T MIN MAX fuel (some (prep.getD [] ++ [b])) ed.2
          | Ev.bdy bd =>
            match prep with
            | none => []
            | some p => (p, bd.intoState) :: splitsRunF H W T MIN MAX fuel none ed.2 := rfl

theorem chunksFromEvents_nil (H : HashAlg) (prep : Option (List Nat)) :
    chunksFromEvents H prep [] = [] := by
  cases prep <;> rfl

theorem chunksFromEvents_data (H : HashAlg) (prep : Option (List Nat)) (b : Nat)
    (l : List (Ev H)) :
    chunksFromEvents H prep (Ev.data b :: l)
      = chunksFromEvents H (some (prep.getD [] ++ [b])) l := by
  cases prep <;> rfl

theorem splitsRunF_eq_chunksFromEvents (H : HashAlg) (W T MIN MAX : Nat) :
    ∀ (fuel : Nat) (prep : Option (List Nat)) (d : DelimSt H),
      splitsRunF H W T MIN MAX fuel prep d
        = chunksFromEvents H prep (delimitedRunF H W T MIN MAX fuel d).1 := by
  intro fuel
  induction fuel with
  | zero => intro prep d; exact (chunksFromEvents_nil H prep).symm
  | succ f ih =>
    intro prep d
    rw [splitsRunF_succ, delimitedRunF_succ]
    cases hnext : delimitedNext H W T MIN MAX d with
    | none =>
      dsimp only
      exact (chunksFromEvents_nil H prep).symm
    | some ed =>
      obtain ⟨e, d'⟩ := ed
      cases e with
      | data b =>
        dsimp only
        rw [ih, chunksFromEvents_data]
      | bdy bd =>
        cases prep with
        | none => rfl
        | some acc =>
          dsimp only
          rw [ih]
          rfl

theorem chunksFromEvents_partEvents (H : HashAlg) (W T MIN MAX : Nat) :
    ∀ (src acc : List Nat) (c : Nat) (st : H.State) (bg : Nat) (ring : List Nat),
      chunksFromEvents H (if acc.isEmpty then none else some acc)
          (partEvents H W T MIN MAX c st bg ring src)
        = (partChunks H W T MIN MAX acc c st bg ring src).map
            (fun p => (p.1, p.2.intoState)) := by
  intro src
  induction src with
  | nil =>
    intro acc c st bg ring
    by_cases hacc : acc.isEmpty
    · simp [partEvents, partChunks, chunksFromEvents, hacc]
    · simp [partEvents, partChunks, chunksFromEvents, hacc, Bdy.intoState]
  | cons b rest ih =>
    intro acc c st bg ring
    have hgetD : (if acc.isEmpty then (none : Option (List Nat)) else some acc).getD []
        = acc := by
      by_cases hacc : acc.isEmpty
      · simp [hacc, List.isEmpty_iff.mp hacc]
      · simp [hacc]
    have ihnil := ih [] 0
    simp only [List.isEmpty_nil, if_pos rfl] at ihnil
    have ihcons := ih (acc ++ [b]) (c + 1)
    have hne : (acc ++ [b]).isEmpty = false := by
      simp [List.isEmpty_iff]
    simp only [hne, Bool.false_eq_true, if_neg] at ihcons
    by_cases h1 : T ≤ H.lvl (feed H W ⟨st, bg, ring, rest⟩ b).1 ∧ MIN ≤ c + 1
    · simp only [partEvents, partChunks, if_pos h1]
      rw [chunksFromEvents_data, hgetD]
      simp only [chunksFromEvents, List.map_cons, Bdy.intoState]
      exact congrArg _ (ihnil _ _ _)
    · by_cases h2 : c + 1 = MAX
      · simp only [partEvents, partChunks, if_neg h1, if_pos h2]
        rw [chunksFromEvents_data, hgetD]
        simp only [chunksFromEvents, List.map_cons, Bdy.intoState]
        exact congrArg _ (ihnil _ _ _)
      · simp only [partEvents, partChunks, if_neg h1, if_neg h2]
        rw [chunksFromEvents_data, hgetD]
        exact ihcons _ _ _

/-! ## Grammar and concatenation over the characterization -/

theorem gram_partEvents (H : HashAlg) (W T MIN MAX : Nat) :
    ∀ (src : List Nat) (c : Nat) (st : H.State) (bg : Nat) (ring : List Nat) (p : Bool),
      gram H p (partEvents H W T MIN MAX c st bg ring src) = true := by
  intro src
  induction src with
  | nil => intro c st bg ring p; simp [partEvents, gram]
  | cons b rest ih =>
    intro c st bg ring p
    by_cases h1 : T ≤ H.lvl (feed H W ⟨st, bg, ring, rest⟩ b).1 ∧ MIN ≤ c + 1
    · simp only [partEvents, if_pos h1, gram]
      exact ih _ _ _ _ _
    · by_cases h2 : c + 1 = MAX
      · simp only [partEvents, if_neg h1, if_pos h2, gram]
        exact ih _ _ _ _ _
      · simp only [partEvents, if_neg h1, if_neg h2, gram]
        exact ih _ _ _ _ _

theorem partChunks_flatten (H : HashAlg) (W T MIN MAX : Nat) :
    ∀ (src acc : List Nat) (c : Nat) (st : H.State) (bg : Nat) (ring : List Nat),
      ((partChunks H W T MIN MAX acc c st bg ring src).map Prod.fst).flatten
        = acc ++ src := by
  intro src
  induction src with
  | nil =>
    intro acc c st bg ring
    by_cases hacc : acc.isEmpty
    · simp [partChunks, hacc, List.isEmpty_iff.mp hacc]
    · simp [partChunks, hacc]
  | cons b rest ih =>
    intro acc c st bg ring
    by_cases h1 : T ≤ H.lvl (feed H W ⟨st, bg, ring, rest⟩ b).1 ∧ MIN ≤ c + 1
    · simp only [partChunks, if_pos h1, List.map_cons, List.flatten_cons]
      rw [ih]
      simp
    · by_cases h2 : c + 1 = MAX
      · simp only [partChunks, if_neg h1, if_pos h2, List.map_cons, List.flatten_cons]
        rw [ih]
        simp
      · simp only [partChunks, if_neg h1, if_neg h2]
        rw [ih]
        simp

/-! ## Characterization of the `Distances` and `Spans` runs -/

theorem distNextLoopF_succ (H : HashAlg) (W T MIN MAX fuel c : Nat) (r : RollingSt H) :
    distNextLoopF H W T MIN MAX (fuel + 1) c r
      = match rollingNext H W r with
        | some sr =>
          if T ≤ H.lvl sr.1 ∧ MIN ≤ c + 1 then
            (yieldExtent H (c + 1) (Bdy.level (H.lvl sr.1) sr.2.state)).map
              (fun e => (e, ⟨0, false, sr.2⟩))
          else if c + 1 = MAX then
            (yieldExtent H (c + 1) (Bdy.capped sr.2.state)).map
              (fun e => (e, ⟨0, false, sr.2⟩))
          else distNextLoopF H W T MIN MAX fuel (c + 1) sr.2
        | none =>
          (yieldExtent H c (Bdy.eof r.state)).map (fun e => (e, ⟨0, true, r⟩)) := rfl

theorem distNextLoopF_spec (H : HashAlg) (W T MIN MAX : Nat) :
    ∀ (src : List Nat) (fuel c : Nat) (st : H.State) (bg : Nat) (ring : List Nat),
      src.length < fuel →
      (partExtents H W T MIN MAX c st bg ring src = []
          ∧ distNextLoopF H W T MIN MAX fuel c ⟨st, bg, ring, src⟩ = none) ∨
      (∃ e rest' st' bg' ring' halt',
        partExtents H W T MIN MAX c st bg ring src
            = e :: partExtents H W T MIN MAX 0 st' bg' ring' rest'
          ∧ distNextLoopF H W T MIN MAX fuel c ⟨st, bg, ring, src⟩
              = some (e, ⟨0, halt', ⟨st', bg', ring', rest'⟩⟩)
          ∧ (halt' = false → rest'.length < src.length)
          ∧ (halt' = true → partExtents H W T MIN MAX 0 st' bg' ring' rest' = [])) := by
  intro src
  induction src with
  | nil =>
    intro fuel c st bg ring hfuel
    obtain ⟨f, rfl⟩ : ∃ f, fuel = f + 1 := ⟨fuel - 1, by omega⟩
    rw [distNextLoopF_succ]
    by_cases hc : c = 0
    · left
      subst hc
      exact ⟨by simp [partExtents], by simp [rollingNext, yieldExtent]⟩
    · right
      refine ⟨⟨c, Bdy.eof st⟩, [], st, bg, ring, true, ?_, ?_, by simp, fun _ => by
        simp [partExtents]⟩
      · simp [partExtents, hc]
      · simp [rollingNext, yieldExtent, hc]
  | cons b rest ih =>
    intro fuel c st bg ring hfuel
    obtain ⟨f, rfl⟩ : ∃ f, fuel = f + 1 := ⟨fuel - 1, by omega⟩
    rw [distNextLoopF_succ]
    by_cases h1 : T ≤ H.lvl (feed H W ⟨st, bg, ring, rest⟩ b).1 ∧ MIN ≤ c + 1
    · right
      refine ⟨⟨c + 1, Bdy.level (H.lvl (feed H W ⟨st, bg, ring, rest⟩ b).1)
          (feed H W ⟨st, bg, ring, rest⟩ b).2.state⟩, rest,
        (feed H W ⟨st, bg, ring, rest⟩ b).2.state,
        (feed H W ⟨st, bg, ring, rest⟩ b).2.begin,
        (feed H W ⟨st, bg, ring, rest⟩ b).2.ring, false, ?_, ?_, by simp, by simp⟩
      · simp [partExtents, h1]
      · simp [rollingNext, yieldExtent, h1]
        rfl
    · by_cases h2 : c + 1 = MAX
      · right
        refine ⟨⟨c + 1, Bdy.capped (feed H W ⟨st, bg, ring, rest⟩ b).2.state⟩, rest,
          (feed H W ⟨st, bg, ring, rest⟩ b).2.state,
          (feed H W ⟨st, bg, ring, rest⟩ b).2.begin,
          (feed H W ⟨st, bg, ring, rest⟩ b).2.ring, false, ?_, ?_, by simp, by simp⟩
        · simp only [partExtents]
          rw [if_neg h1, if_pos h2]
        · simp only [rollingNext]
          rw [if_neg h1, if_pos h2]
          simp [yieldExtent]
          rfl
      · have hrec := ih f (c + 1) (feed H W ⟨st, bg, ring, rest⟩ b).2.state
          (feed H W ⟨st, bg, ring, rest⟩ b).2.begin
          (feed H W ⟨st, bg, ring, rest⟩ b).2.ring (by simp at hfuel ⊢; omega)
        have hred : distNextLoopF H W T MIN MAX (f + 1) c ⟨st, bg, ring, b :: rest⟩
            = distNextLoopF H W T MIN MAX f (c + 1)
                (feed H W ⟨st, bg, ring, rest⟩ b).2 := by
          rw [distNextLoopF_succ]
          show (if T ≤ H.lvl (feed H W ⟨st, bg, ring, rest⟩ b).1 ∧ MIN ≤ c + 1
              then _ else _) = _
          rw [if_neg h1, if_neg h2]
        have hpe : partExtents H W T MIN MAX c st bg ring (b :: rest)
            = partExtents H W T MIN MAX (c + 1)
                (feed H W ⟨st, bg, ring, rest⟩ b).2.state
                (feed H W ⟨st, bg, ring, rest⟩ b).2.begin
                (feed H W ⟨st, bg, ring, rest⟩ b).2.ring rest := by
          simp only [partExtents]
          rw [if_neg h1, if_neg h2]
        rcases hrec with ⟨hp, hl⟩ | ⟨e, rest', st', bg', ring', halt', hp, hl, hlen, hhalt⟩
        · left
          exact ⟨hpe.trans hp, hred.trans hl⟩
        · right
          refine ⟨e, rest', st', bg', ring', halt', hpe.trans hp, hred.trans hl,
            fun hf => ?_, hhalt⟩
          have := hlen hf
          simp at this ⊢
          omega

theorem distRunF_succ (H : HashAlg) (W T MIN MAX fuel : Nat) (d : DistSt H) :
    distRunF H W T MIN MAX (fuel + 1) d
      = match distNext H W T MIN MAX d with
        | none => []
        | some ed => ed.1 :: distRunF H W T MIN MAX fuel ed.2 := rfl

theorem distRunF_halt (H : HashAlg) (W T MIN MAX : Nat) (fuel : Nat) (d : DistSt H)
    (h : d.halt = true) : distRunF H W T MIN MAX fuel d = [] := by
  cases fuel with
  | zero => rfl
  | succ f =>
    rw [distRunF_succ]
    have : distNext H W T MIN MAX d = none := by simp [distNext, h]
    rw [this]

theorem distRunF_eq_partExtents (H : HashAlg) (W T MIN MAX : Nat) :
    ∀ (fuel : Nat) (src : List Nat) (c : Nat) (st : H.State) (bg : Nat) (ring : List Nat),
      src.length + 2 ≤ fuel →
      distRunF H W T MIN MAX fuel ⟨c, false, ⟨st, bg, ring, src⟩⟩
        = partExtents H W T MIN MAX c st bg ring src := by
  intro fuel
  induction fuel with
  | zero => intro src c st bg ring h; omega
  | succ f ih =>
    intro src c st bg ring hfuel
    rw [distRunF_succ]
    have hd : distNext H W T MIN MAX ⟨c, false, ⟨st, bg, ring, src⟩⟩
        = distNextLoopF H W T MIN MAX (src.length + 1) c ⟨st, bg, ring, src⟩ := by
      simp [distNext]
    rcases distNextLoopF_spec H W T MIN MAX src (src.length + 1) c st bg ring
        (by omega) with ⟨hpe, hloop⟩ | ⟨e, rest', st', bg', ring', halt', hpe, hloop,
        hlen, hhalt⟩
    · rw [hd, hloop, hpe]
    · rw [hd, hloop]
      dsimp only
      rw [hpe]
      cases halt' with
      | true =>
        rw [distRunF_halt H W T MIN MAX f _ rfl, hhalt rfl]
      | false =>
        rw [ih rest' 0 st' bg' ring' (by have := hlen rfl; omega)]

theorem spansRunF_succ (H : HashAlg) (W T MIN MAX fuel : Nat) (saved : List Nat)
    (d : DistSt H) :
    spansRunF H W T MIN MAX (fuel + 1) saved d
      = match distNext H W T MIN MAX d with
        | none => []
        | some ed =>
          (saved.take ed.1.length, ed.1.boundary.intoState)
            :: spansRunF H W T MIN MAX fuel (saved.drop ed.1.length) ed.2 := rfl

theorem spansRunF_eq_spansFromExtents (H : HashAlg) (W T MIN MAX : Nat) :
    ∀ (fuel : Nat) (saved : List Nat) (d : DistSt H),
      spansRunF H W T MIN MAX fuel saved d
        = spansFromExtents H saved (distRunF H W T MIN MAX fuel d) := by
  intro fuel
  induction fuel with
  | zero => intro saved d; rfl
  | succ f ih =>
    intro saved d
    rw [spansRunF_succ, distRunF_succ]
    cases hnext : distNext H W T MIN MAX d with
    | none => rfl
    | some ed =>
      dsimp only
      rw [ih]
      rfl

theorem spansFromExtents_partExtents (H : HashAlg) (W T MIN MAX : Nat) :
    ∀ (src acc : List Nat) (c : Nat) (st : H.State) (bg : Nat) (ring : List Nat),
      acc.length = c →
      spansFromExtents H (acc ++ src) (partExtents H W T MIN MAX c st bg ring src)
        = (partChunks H W T MIN MAX acc c st bg ring src).map
            (fun p => (p.1, p.2.intoState)) := by
  intro src
  induction src with
  | nil =>
    intro acc c st bg ring hacc
    subst hacc
    by_cases hc : acc.length = 0
    · have : acc = [] := List.length_eq_zero.mp hc
      subst this
      simp [partExtents, partChunks, spansFromExtents]
    · have hne : acc.isEmpty = false := by
        cases acc with
        | nil => simp at hc
        | cons x xs => rfl
      simp [partExtents, partChunks, spansFromExtents, hc, hne, Bdy.intoState]
  | cons b rest ih =>
    intro acc c st bg ring hacc
    subst hacc
    have ihnil : ∀ (st' : H.State) (bg' : Nat) (ring' : List Nat),
        spansFromExtents H rest (partExtents H W T MIN MAX 0 st' bg' ring' rest)
          = (partChunks H W T MIN MAX [] 0 st' bg' ring' rest).map
              (fun p => (p.1, p.2.intoState)) := by
      intro st' bg' ring'
      have := ih [] 0 st' bg' ring' rfl
      simpa using this
    by_cases h1 : T ≤ H.lvl (feed H W ⟨st, bg, ring, rest⟩ b).1 ∧ MIN ≤ acc.length + 1
    · simp only [partExtents, partChunks, if_pos h1, spansFromExtents]
      rw [show acc ++ b :: rest = acc ++ ([b] ++ rest) from rfl]
      rw [show acc.length + 1 = acc.length + [b].length from rfl]
      rw [List.take_append, List.drop_append]
      simp only [List.take, List.drop, List.map_cons, Bdy.intoState]
      exact congrArg (fun l => ((acc ++ [b],
        (feed H W ⟨st, bg, ring, rest⟩ b).2.state)) :: l) (ihnil _ _ _)
    · by_cases h2 : acc.length + 1 = MAX
      · simp only [partExtents, partChunks, if_neg h1, if_pos h2, spansFromExtents]
        rw [show acc ++ b :: rest = acc ++ ([b] ++ rest) from rfl]
        rw [show acc.length + 1 = acc.length + [b].length from rfl]
        rw [List.take_append, List.drop_append]
        simp only [List.take, List.drop, List.map_cons, Bdy.intoState]
        exact congrArg (fun l => ((acc ++ [b],
          (feed H W ⟨st, bg, ring, rest⟩ b).2.state)) :: l) (ihnil _ _ _)
      · simp only [partExtents, partChunks, if_neg h1, if_neg h2]
        have hl : (acc ++ [b]).length = acc.length + 1 := by simp
        have := ih (acc ++ [b]) (acc.length + 1)
          (feed H W ⟨st, bg, ring, rest⟩ b).2.state
          (feed H W ⟨st, bg, ring, rest⟩ b).2.begin
          (feed H W ⟨st, bg, ring, rest⟩ b).2.ring hl
        rw [← this]
        simp

theorem partExtents_eq_map_partChunks (H : HashAlg) (W T MIN MAX : Nat) :
    ∀ (src acc : List Nat) (c : Nat) (st : H.State) (bg : Nat) (ring : List Nat),
      acc.length = c →
      partExtents H W T MIN MAX c st bg ring src
        = (partChunks H W T MIN MAX acc c st bg ring src).map
            (fun p => ExtentE.mk p.1.length p.2) := by
  intro src
  induction src with
  | nil =>
    intro acc c st bg ring hacc
    subst hacc
    by_cases hc : acc.length = 0
    · have : acc = [] := List.length_eq_zero.mp hc
      subst this
      simp [partExtents, partChunks]
    · have hne : acc.isEmpty = false := by
        cases acc with
        | nil => simp at hc
        | cons x xs => rfl
      simp [partExtents, partChunks, hc, hne]
  | cons b rest ih =>
    intro acc c st bg ring hacc
    subst hacc
    have ihnil : ∀ (st' : H.State) (bg' : Nat) (ring' : List Nat),
        partExtents H W T MIN MAX 0 st' bg' ring' rest
          = (partChunks H W T MIN MAX [] 0 st' bg' ring' rest).map
              (fun p => ExtentE.mk p.1.length p.2) := fun st' bg' ring' =>
      ih [] 0 st' bg' ring' rfl
    by_cases h1 : T ≤ H.lvl (feed H W ⟨st, bg, ring, rest⟩ b).1 ∧ MIN ≤ acc.length + 1
    · simp only [partExtents, partChunks, if_pos h1, List.map_cons]
      rw [ihnil]
      simp
    · by_cases h2 : acc.length + 1 = MAX
      · simp only [partExtents, partChunks, if_neg h1, if_pos h2, List.map_cons]
        rw [ihnil]
        simp
      · simp only [partExtents, partChunks, if_neg h1, if_neg h2]
        exact ih (acc ++ [b]) (acc.length + 1) _ _ _ (by simp)

theorem partExtents_bounds (H : HashAlg) (W T MIN MAX : Nat)
    (hmm : MIN ≤ MAX) (hmax : 1 ≤ MAX) :
    ∀ (src : List Nat) (c : Nat) (st : H.State) (bg : Nat) (ring : List Nat),
      c < MAX →
      ∀ e ∈ partExtents H W T MIN MAX c st bg ring src,
        e.length ≤ MAX ∧ (e.boundary.isEof = false → MIN ≤ e.length) := by
  intro src
  induction src with
  | nil =>
    intro c st bg ring hc e he
    by_cases h0 : c = 0
    · simp [partExtents, h0] at he
    · simp only [partExtents, if_neg h0, List.mem_singleton] at he
      subst he
      exact ⟨Nat.le_of_lt hc, fun hfalse => by simp [Bdy.isEof] at hfalse⟩
  | cons b rest ih =>
    intro c st bg ring hc e he
    by_cases h1 : T ≤ H.lvl (feed H W ⟨st, bg, ring, rest⟩ b).1 ∧ MIN ≤ c + 1
    · simp only [partExtents, if_pos h1, List.mem_cons] at he
      rcases he with rfl | he
      · exact ⟨hc, fun _ => h1.2⟩
      · exact ih 0 _ _ _ hmax e he
    · by_cases h2 : c + 1 = MAX
      · simp only [partExtents, if_neg h1, if_pos h2, List.mem_cons] at he
        rcases he with rfl | he
        · refine ⟨?_, fun _ => ?_⟩
          · show c + 1 ≤ MAX
            omega
          · show MIN ≤ c + 1
            omega
        · exact ih 0 _ _ _ hmax e he
      · simp only [partExtents, if_neg h1, if_neg h2] at he
        exact ih (c + 1) _ _ _ (by omega) e he

theorem partChunks_eof_last (H : HashAlg) (W T MIN MAX : Nat) :
    ∀ (src acc : List Nat) (c : Nat) (st : H.State) (bg : Nat) (ring : List Nat)
      (i : Nat) (p : List Nat × Bdy H),
      (partChunks H W T MIN MAX acc c st bg ring src)[i]? = some p →
      i + 1 < (partChunks H W T MIN MAX acc c st bg ring src).length →
      p.2.isEof = false := by
  intro src
  induction src with
  | nil =>
    intro acc c st bg ring i p hget hlt
    by_cases hacc : acc.isEmpty
    · simp [partChunks, hacc] at hget
    · simp only [partChunks, if_neg hacc, List.length_singleton] at hlt
      omega
  | cons b rest ih =>
    intro acc c st bg ring i p hget hlt
    by_cases h1 : T ≤ H.lvl (feed H W ⟨st, bg, ring, rest⟩ b).1 ∧ MIN ≤ c + 1
    · simp only [partExtents, partChunks, if_pos h1] at hget hlt
      cases i with
      | zero =>
        simp only [List.getElem?_cons_zero, Option.some_inj] at hget
        subst hget
        rfl
      | succ j =>
        simp only [List.getElem?_cons_succ] at hget
        simp only [List.length_cons] at hlt
        exact ih [] 0 _ _ _ j p hget (by omega)
    · by_cases h2 : c + 1 = MAX
      · simp only [partChunks, if_neg h1, if_pos h2] at hget hlt
        cases i with
        | zero =>
          simp only [List.getElem?_cons_zero, Option.some_inj] at hget
          subst hget
          rfl
        | succ j =>
          simp only [List.getElem?_cons_succ] at hget
          simp only [List.length_cons] at hlt
          exact ih [] 0 _ _ _ j p hget (by omega)
      · simp only [partChunks, if_neg h1, if_neg h2] at hget hlt
        exact ih (acc ++ [b]) (c + 1) _ _ _ i p hget hlt

/-! ## Run-level corollaries -/

theorem distRun_eq_partExtents (H : HashAlg) (W T MIN MAX : Nat) (src : List Nat) :
    distRun H W T MIN MAX src
      = partExtents H W T MIN MAX 0 H.init 0 (List.replicate W 0) src := by
  rw [distRun, show (⟨0, false, Rolling.start H W src⟩ : DistSt H)
      = ⟨0, false, ⟨H.init, 0, List.replicate W 0, src⟩⟩ from rfl]
  exact distRunF_eq_partExtents H W T MIN MAX (src.length + 2) src 0 H.init 0
    (List.replicate W 0) (le_refl _)

theorem splitsRun_eq_partChunks (H : HashAlg) (W T MIN MAX : Nat) (src : List Nat) :
    splitsRun H W T MIN MAX src
      = (partChunks H W T MIN MAX [] 0 H.init 0 (List.replicate W 0) src).map
          (fun p => (p.1, p.2.intoState)) := by
  rw [splitsRun, splitsRunF_eq_chunksFromEvents,
    show (Delimited.start H W src : DelimSt H)
      = ⟨none, 0, false, ⟨H.init, 0, List.replicate W 0, src⟩⟩ from rfl,
    (delimitedRunF_eq_partEvents H W T MIN MAX src (2 * src.length + 2) 0 H.init 0
      (List.replicate W 0) (le_refl _)).1]
  have := chunksFromEvents_partEvents H W T MIN MAX src [] 0 H.init 0
    (List.replicate W 0)
  simpa using this

theorem spansRun_eq_partChunks (H : HashAlg) (W T MIN MAX : Nat) (src : List Nat) :
    spansRun H W T MIN MAX src
      = (partChunks H W T MIN MAX [] 0 H.init 0 (List.replicate W 0) src).map
          (fun p => (p.1, p.2.intoState)) := by
  rw [spansRun, spansRunF_eq_spansFromExtents,
    show (⟨0, false, Rolling.start H W src⟩ : DistSt H)
      = ⟨0, false, ⟨H.init, 0, List.replicate W 0, src⟩⟩ from rfl,
    distRunF_eq_partExtents H W T MIN MAX (src.length + 2) src 0 H.init 0
      (List.replicate W 0) (le_refl _)]
  have := spansFromExtents_partExtents H W T MIN MAX src [] 0 H.init 0
    (List.replicate W 0) rfl
  simpa using this

/-! ## C2: concatenation round-trip -/

/-- C2: for every hasher, window width, configuration and finite input,
concatenating in order the byte contents of all chunks yielded by the
owned `Splits` consumer, or of all sub-slices yielded by the borrowing
`Spans` consumer, reproduces the original input exactly. -/
theorem chunks_concat_roundtrip (H : HashAlg) (W T MIN MAX : Nat) (src : List Nat) :
    ((splitsRun H W T MIN MAX src).map Prod.fst).flatten = src ∧
    ((spansRun H W T MIN MAX src).map Prod.fst).flatten = src := by
  constructor
  · rw [splitsRun_eq_partChunks, List.map_map,
      show (Prod.fst ∘ fun p : List Nat × Bdy H => (p.1, p.2.intoState)) = Prod.fst
        from rfl,
      partChunks_flatten]
    rfl
  · rw [spansRun_eq_partChunks, List.map_map,
      show (Prod.fst ∘ fun p : List Nat × Bdy H => (p.1, p.2.intoState)) = Prod.fst
        from rfl,
      partChunks_flatten]
    rfl

/-! ## C7: owned/borrowed consumer equivalence -/

/-- C7: for every hasher, window width, configuration and in-memory
input, the borrowing consumer (`Spans` over `Distances`) yields exactly
the same chunk sequence as the owned consumer (`Splits` over
`Delimited`): the i-th borrowed sub-slice's bytes equal the i-th owned
chunk's bytes and the paired end states are equal. -/
theorem spans_splits_equiv (H : HashAlg) (W T MIN MAX : Nat) (src : List Nat) :
    spansRun H W T MIN MAX src = splitsRun H W T MIN MAX src := by
  rw [spansRun_eq_partChunks, splitsRun_eq_partChunks]

/-! ## C3: event grammar -/

/-- C3: for every hasher, window width, configuration and finite input,
the event sequence produced by polling `Delimited` to exhaustion
matches `Data* (Boundary | Capped) (Data* (Boundary | Capped))* Data* Eof`
with every `Boundary`/`Capped` immediately following a `Data` event and
exactly one final `Eof`; the iterator state after the run is halted and
every subsequent poll yields nothing. -/
theorem delimited_event_grammar (H : HashAlg) (W T MIN MAX : Nat) (src : List Nat) :
    gram H false (delimitedRun H W T MIN MAX src) = true ∧
    (delimitedRunF H W T MIN MAX (2 * src.length + 2)
      (Delimited.start H W src)).2.halt = true ∧
    delimitedNext H W T MIN MAX
      (delimitedRunF H W T MIN MAX (2 * src.length + 2)
        (Delimited.start H W src)).2 = none := by
  have h := delimitedRunF_eq_partEvents H W T MIN MAX src (2 * src.length + 2) 0
    H.init 0 (List.replicate W 0) (le_refl _)
  refine ⟨?_, h.2.1, h.2.2⟩
  rw [delimitedRun, show (Delimited.start H W src : DelimSt H)
      = ⟨none, 0, false, ⟨H.init, 0, List.replicate W 0, src⟩⟩ from rfl, h.1]
  exact gram_partEvents H W T MIN MAX src 0 H.init 0 (List.replicate W 0) false

/-! ## C1: chunk/extent length bounds -/

/-- C1 counterexample: with `MIN_SIZE = 0`, `MAX_SIZE = 0` (so
`MAX_SIZE ≥ MIN_SIZE` holds) and `THRESHOLD = 0`, the one-byte input
`[7]` produces a single `Level`-terminated (non-`Eof`) extent of length
1, violating the claimed `L ≤ MAX_SIZE`: the claim misses the
requirement `MAX_SIZE ≥ 1`, without which the `counter == MAX_SIZE`
cap can never fire. -/
theorem chunk_length_bounds_cex :
    ¬ (∀ e ∈ distRun trivialHasher 1 0 0 0 [7],
        e.boundary.isEof = false → e.length ≤ 0) := by
  decide

/-- C1 (amended): for every hasher, window width, configuration with
`MIN_SIZE ≤ MAX_SIZE` and `1 ≤ MAX_SIZE`, and finite input: every
extent produced by the boundary detector satisfies `length ≤ MAX_SIZE`,
and every extent other than the final `Eof`-terminated one also
satisfies `MIN_SIZE ≤ length`; correspondingly every chunk yielded by
`Splits` has length at most `MAX_SIZE`, and every chunk but the last
has length at least `MIN_SIZE`. -/
theorem chunk_length_bounds (H : HashAlg) (W T MIN MAX : Nat) (src : List Nat)
    (hminmax : MIN ≤ MAX) (hmax : 1 ≤ MAX) :
    (∀ e ∈ distRun H W T MIN MAX src,
        e.length ≤ MAX ∧ (e.boundary.isEof = false → MIN ≤ e.length)) ∧
    (∀ chunk ∈ splitsRun H W T MIN MAX src, chunk.1.length ≤ MAX) ∧
    (∀ (i : Nat) (chunk : List Nat × H.State),
        (splitsRun H W T MIN MAX src)[i]? = some chunk →
        i + 1 < (splitsRun H W T MIN MAX src).length →
        MIN ≤ chunk.1.length) := by
  have hext := partExtents_bounds H W T MIN MAX hminmax hmax src 0 H.init 0
    (List.replicate W 0) hmax
  have halign := partExtents_eq_map_partChunks H W T MIN MAX src [] 0 H.init 0
    (List.replicate W 0) rfl
  refine ⟨?_, ?_, ?_⟩
  · rw [distRun_eq_partExtents]
    exact hext
  · intro chunk hmem
    rw [splitsRun_eq_partChunks] at hmem
    obtain ⟨p, hp, rfl⟩ := List.mem_map.mp hmem
    have : ExtentE.mk p.1.length p.2
        ∈ partExtents H W T MIN MAX 0 H.init 0 (List.replicate W 0) src := by
      rw [halign]
      exact List.mem_map_of_mem _ hp
    exact (hext _ this).1
  · intro i chunk hget hlt
    rw [splitsRun_eq_partChunks] at hget hlt
    rw [List.getElem?_map] at hget
    obtain ⟨p, hp, hchunk⟩ := Option.map_eq_some'.mp hget
    rw [List.length_map] at hlt
    have heof : p.2.isEof = false :=
      partChunks_eof_last H W T MIN MAX src [] 0 H.init 0 (List.replicate W 0) i p
        hp hlt
    have hmem : ExtentE.mk p.1.length p.2
        ∈ partExtents H W T MIN MAX 0 H.init 0 (List.replicate W 0) src := by
      rw [halign]
      exact List.mem_map_of_mem _ (List.getElem?_mem hp)
    have := (hext _ hmem).2 heof
    rw [← hchunk]
    exact this

/-- C1 witness: the amended bounds instantiated for the crate's
`TrivialHasher` at `THRESHOLD = 1`, `MIN_SIZE = 1`, `MAX_SIZE = 2`,
window width 2 and input `[2, 1, 2]`. -/
theorem chunk_length_bounds_witness :
    ((1 : Nat) ≤ 2 ∧ (1 : Nat) ≤ 2) ∧
    ((∀ e ∈ distRun trivialHasher 2 1 1 2 [2, 1, 2],
        e.length ≤ 2 ∧ (e.boundary.isEof = false → 1 ≤ e.length)) ∧
      (∀ chunk ∈ splitsRun trivialHasher 2 1 1 2 [2, 1, 2], chunk.1.length ≤ 2) ∧
      (∀ (i : Nat) (chunk : List Nat × trivialHasher.State),
          (splitsRun trivialHasher 2 1 1 2 [2, 1, 2])[i]? = some chunk →
          i + 1 < (splitsRun trivialHasher 2 1 1 2 [2, 1, 2]).length →
          1 ≤ chunk.1.length)) :=
  ⟨⟨by decide, by decide⟩,
    chunk_length_bounds trivialHasher 2 1 1 2 [2, 1, 2] (by decide) (by decide)⟩

end Hashsplit
